import Mathlib

/-!
Verification of `buffers_adapter` (boost/beast/core/buffers_adapter.hpp):
a dynamic-buffer adapter over a fixed, externally owned mutable buffer
sequence.  The header in the repository declares the class, its state
fields (`bs_`, `begin_`, `out_`, `end_`, `max_size_`, `in_pos_`,
`in_size_`, `out_pos_`, `out_end_`) and the contracts of `prepare`,
`commit` and `consume`; the out-of-line member definitions live in
`impl/buffers_adapter.hpp`, which is not part of the sources under
review, so those member bodies are modelled from the specification.

Bytes are modelled as `Nat`, a segment as a `List Nat` of its bytes,
and the buffer sequence as a `List (List Nat)`.  Iterators into the
buffer sequence are modelled as segment indices (`Nat`).
-/

namespace BuffersAdapter

/-- Total byte length of a segment sequence: the sum of the lengths of
its segments.  This is the value `max_size_` is initialised to. -/
def totalLen (bs : List (List Nat)) : Nat :=
  (bs.map List.length).sum

/-- The list of segment lengths of a buffer sequence. -/
def lensOf (bs : List (List Nat)) : List Nat :=
  bs.map List.length

/-- Sum of the first `i` segment lengths: the absolute byte offset of
the start of segment `i`. -/
def sumTo (ls : List Nat) (i : Nat) : Nat :=
  (ls.take i).sum

/-- Modelled from the spec: the cursor-advancement walk (missing from
the sources; spec section 4.1, "Key algorithm — cursor advancement
across segments").  Given the segment lengths and an absolute byte
offset `k`, walk forward through the segments, subtracting each
segment's length from `k` until `k` fits strictly within the current
segment; the result is the cursor `(segment index, in-segment offset)`
denoting absolute position `k`.  Per the spec, an advancement of zero
terminates immediately, and zero-length segments are passed over. -/
def cursorOf : List Nat → Nat → Nat × Nat
  | [], k => (0, k)
  | l :: ls, k =>
    if k < l ∨ k = 0 then (0, k)
    else ((cursorOf ls (k - l)).1 + 1, (cursorOf ls (k - l)).2)

/-- State of `buffers_adapter`, with exactly the data members declared
in the header (lines 47-55): the stored buffer sequence, the three
iterators (as segment indices), and the four scalar counters plus
`max_size_`. -/
structure buffers_adapter where
  bs_ : List (List Nat)
  begin_ : Nat
  out_ : Nat
  end_ : Nat
  max_size_ : Nat
  in_pos_ : Nat
  in_size_ : Nat
  out_pos_ : Nat
  out_end_ : Nat
deriving Repr, DecidableEq

namespace buffers_adapter

/-- The segment lengths of the wrapped sequence. -/
def lens (s : buffers_adapter) : List Nat :=
  lensOf s.bs_

/-- Absolute byte offset of the `begin_` cursor (start of the readable
region): start offset of segment `begin_` plus the in-segment offset
`in_pos_`. -/
def inStart (s : buffers_adapter) : Nat :=
  sumTo s.lens s.begin_ + s.in_pos_

/-- Absolute byte offset of the `out_` cursor (end of the readable
region, start of the writable region). -/
def outStart (s : buffers_adapter) : Nat :=
  sumTo s.lens s.out_ + s.out_pos_

/-- Modelled from the spec: construction (the out-of-line constructor
is missing from the sources; spec section 3, "the cursor set and
counters are created at construction, all zeroed", and "`max_size`
... equals the total byte length of the segment sequence"). -/
def mk_ (bs : List (List Nat)) : buffers_adapter :=
  { bs_ := bs
    begin_ := 0
    out_ := 0
    end_ := 0
    max_size_ := totalLen bs
    in_pos_ := 0
    in_size_ := 0
    out_pos_ := 0
    out_end_ := 0 }

/-- `size()` returns `in_size_` (header, lines 133-137). -/
def size (s : buffers_adapter) : Nat :=
  s.in_size_

/-- `max_size()` returns `max_size_` (header, lines 140-144). -/
def max_size (s : buffers_adapter) : Nat :=
  s.max_size_

/-- `capacity()` returns `max_size_` (header, lines 147-151). -/
def capacity (s : buffers_adapter) : Nat :=
  s.max_size_

/-- Modelled from the spec: `prepare(n)` (body missing from the
sources).  Per the header contract it throws `std::length_error` if
`size() + n` exceeds `max_size()` with the strong guarantee, and per
the spec it extends the reserved writable region to `n` bytes, "never
shrinking it": reserving `n` at or below the already reserved
`out_end_` is a no-op on state.  Extending recomputes the `end_`
iterator by the cursor walk from the writable region's start. -/
def prepare (s : buffers_adapter) (n : Nat) : Except String buffers_adapter :=
  if s.max_size_ < s.in_size_ + n then
    Except.error "length_error"
  else if n ≤ s.out_end_ then
    Except.ok s
  else
    Except.ok { s with
      out_end_ := n
      end_ := (cursorOf s.lens (s.outStart + n)).1 }

/-- Modelled from the spec: `commit(n)` (body missing from the
sources).  Per the header contract it appends `min n out_end_` bytes
from the start of the writable region to the readable region and
discards the remainder of the writable region; the `out_` cursor
advances by the committed count and the `end_` iterator collapses onto
it. -/
def commit (s : buffers_adapter) (n : Nat) : buffers_adapter :=
  { s with
    out_ := (cursorOf s.lens (s.outStart + min n s.out_end_)).1
    out_pos_ := (cursorOf s.lens (s.outStart + min n s.out_end_)).2
    end_ := (cursorOf s.lens (s.outStart + min n s.out_end_)).1
    in_size_ := s.in_size_ + min n s.out_end_
    out_end_ := 0 }

/-- Modelled from the spec: `consume(n)` (body missing from the
sources).  Removes `min n in_size_` bytes from the front of the
readable region by advancing the `begin_` cursor; requests beyond
`in_size_` are clamped, never an error. -/
def consume (s : buffers_adapter) (n : Nat) : buffers_adapter :=
  { s with
    begin_ := (cursorOf s.lens (s.inStart + min n s.in_size_)).1
    in_pos_ := (cursorOf s.lens (s.inStart + min n s.in_size_)).2
    in_size_ := s.in_size_ - min n s.in_size_ }

/-- Modelled from the spec: the readable bytes exposed by `data()` (the
`const_buffers_type` construction is missing from the sources): exactly
the `in_size_` bytes starting at the `begin_` cursor, in order, across
segment boundaries. -/
def data (s : buffers_adapter) : List Nat :=
  (s.bs_.flatten.drop s.inStart).take s.in_size_

end buffers_adapter

/-- Span extraction between cursors: `spansAux ls i a cnt` lists the
contiguous spans `(segment index, in-segment offset, length)` covering
`cnt` bytes starting `a` bytes into the segment with index `i`,
walking forward across segments.  Shared by the readable
(`const_buffers_type`) and writable (`mutable_buffers_type`) views. -/
def spansAux : List Nat → Nat → Nat → Nat → List (Nat × Nat × Nat)
  | [], _, _, _ => []
  | l :: ls, i, a, cnt =>
    if cnt = 0 then []
    else if l ≤ a then spansAux ls (i + 1) (a - l) cnt
    else
      let t := min cnt (l - a)
      (i, a, t) :: spansAux ls (i + 1) 0 (cnt - t)

/-- Spans covering the byte range `[a, a + cnt)` of the sequence with
segment lengths `ls`. -/
def spansBetween (ls : List Nat) (a cnt : Nat) : List (Nat × Nat × Nat) :=
  spansAux ls 0 a cnt

namespace buffers_adapter

/-- Modelled from the spec: the span view returned by `data()`: the
spans covering the readable region. -/
def dataSpans (s : buffers_adapter) : List (Nat × Nat × Nat) :=
  spansBetween s.lens s.inStart s.in_size_

/-- Modelled from the spec: the span view of the writable (reserved)
region, as returned by `prepare`. -/
def outSpans (s : buffers_adapter) : List (Nat × Nat × Nat) :=
  spansBetween s.lens s.outStart s.out_end_

end buffers_adapter

/-- Writing bytes through a writable view: overwrite the bytes starting
at in-segment offset `off` of the first segment with the given bytes,
continuing across segment boundaries; segment lengths are preserved and
bytes beyond the end of the sequence are dropped. -/
def writeSegs : List (List Nat) → Nat → List Nat → List (List Nat)
  | [], _, _ => []
  | seg :: rest, off, bytes =>
    if seg.length ≤ off then
      seg :: writeSegs rest (off - seg.length) bytes
    else
      (seg.take off ++ bytes.take (min bytes.length (seg.length - off))
          ++ seg.drop (off + min bytes.length (seg.length - off))) ::
        writeSegs rest 0 (bytes.drop (min bytes.length (seg.length - off)))

namespace buffers_adapter

/-- The caller writing `bytes` through the view returned by `prepare`:
the bytes land at the start of the writable region (absolute offset
`outStart`); only the stored sequence's contents change. -/
def writeThrough (s : buffers_adapter) (bytes : List Nat) : buffers_adapter :=
  { s with bs_ := writeSegs s.bs_ s.outStart bytes }

/-- Copy construction, from the delegating constructor in the header
(lines 57-71): the buffer sequence is copied, each iterator is rebased
onto the copy at the same segment index, and the five scalar counters
are copied unchanged. -/
def copyFrom (other : buffers_adapter) : buffers_adapter :=
  { bs_ := other.bs_
    begin_ := other.begin_
    out_ := other.out_
    end_ := other.end_
    max_size_ := other.max_size_
    in_pos_ := other.in_pos_
    in_size_ := other.in_size_
    out_pos_ := other.out_pos_
    out_end_ := other.out_end_ }

/-- Lexicographic order on cursors `(segment index, in-segment
offset)`: segment-sequence order of positions. -/
def cursorLe (a b : Nat × Nat) : Prop :=
  a.1 < b.1 ∨ (a.1 = b.1 ∧ a.2 ≤ b.2)

instance (a b : Nat × Nat) : Decidable (cursorLe a b) := by
  unfold cursorLe; infer_instance

/-- Well-formedness of a state: the counters satisfy the capacity
invariants and the stored cursors are the canonical (walk-computed)
cursors for the positions the counters describe: `begin_`/`in_pos_` at
`inStart`, `out_`/`out_pos_` exactly `in_size_` bytes later, and
`end_` a further `out_end_` bytes later. -/
def Invariant (s : buffers_adapter) : Prop :=
  s.max_size_ = totalLen s.bs_ ∧
  s.in_size_ + s.out_end_ ≤ s.max_size_ ∧
  (s.begin_, s.in_pos_) = cursorOf s.lens s.inStart ∧
  (s.out_, s.out_pos_) = cursorOf s.lens (s.inStart + s.in_size_) ∧
  s.end_ = (cursorOf s.lens (s.inStart + s.in_size_ + s.out_end_)).1

instance (s : buffers_adapter) : Decidable s.Invariant := by
  unfold Invariant; infer_instance

/-- The cursor ordering invariant: `begin_` at or before `out_`, and
`out_` at or before `end_`, in segment-sequence order. -/
def Ordered (s : buffers_adapter) : Prop :=
  cursorLe (s.begin_, s.in_pos_) (s.out_, s.out_pos_) ∧ s.out_ ≤ s.end_

instance (s : buffers_adapter) : Decidable s.Ordered := by
  unfold Ordered; infer_instance

/-- A sample partially-used well-formed state over two 2-byte
segments: one byte consumed, two readable, one byte reserved. -/
def sampleUsed : buffers_adapter :=
  ⟨[[1, 2], [3, 4]], 0, 1, 2, 4, 1, 2, 1, 1⟩

end buffers_adapter

/-- The bytes of the string "ABCDEF". -/
def abBytes : List Nat := [65, 66, 67, 68, 69, 70]

/-- A segment sequence of two spans of 4 bytes each (capacity 8). -/
def abSeq : List (List Nat) := [[48, 48, 48, 48], [48, 48, 48, 48]]

/-- The state of the adapter over `abSeq` right after `prepare 6`. -/
def abPrepared : buffers_adapter :=
  ⟨abSeq, 0, 0, 1, 8, 0, 0, 0, 6⟩

/-! ### Cursor-walk algebra -/

theorem sumTo_nil (i : Nat) : sumTo [] i = 0 := by
  simp [sumTo]

theorem sumTo_zero (ls : List Nat) : sumTo ls 0 = 0 := by
  simp [sumTo]

theorem sumTo_cons_succ (l : Nat) (ls : List Nat) (i : Nat) :
    sumTo (l :: ls) (i + 1) = l + sumTo ls i := by
  simp [sumTo]

/-- The cursor produced by the walk denotes exactly the absolute byte
offset it was computed from. -/
theorem abs_cursorOf (ls : List Nat) (k : Nat) :
    sumTo ls (cursorOf ls k).1 + (cursorOf ls k).2 = k := by
  induction ls generalizing k with
  | nil => simp [cursorOf, sumTo_nil]
  | cons l ls ih =>
    by_cases h : k < l ∨ k = 0
    · simp [cursorOf, h, sumTo_zero]
    · simp only [cursorOf, if_neg h]
      rw [sumTo_cons_succ]
      have := ih (k - l)
      omega

/-- The walk is monotone: larger absolute offsets give cursors at or
after smaller ones in segment-sequence (lexicographic) order. -/
theorem cursorOf_mono (ls : List Nat) (k1 k2 : Nat) (h : k1 ≤ k2) :
    buffers_adapter.cursorLe (cursorOf ls k1) (cursorOf ls k2) := by
  induction ls generalizing k1 k2 with
  | nil =>
    simp [cursorOf, buffers_adapter.cursorLe]
    omega
  | cons l ls ih =>
    by_cases h1 : k1 < l ∨ k1 = 0
    · by_cases h2 : k2 < l ∨ k2 = 0
      · simp [cursorOf, if_pos h1, if_pos h2, buffers_adapter.cursorLe]
        omega
      · simp [cursorOf, if_pos h1, if_neg h2, buffers_adapter.cursorLe]
    · have h2 : ¬ (k2 < l ∨ k2 = 0) := by omega
      simp only [cursorOf, if_neg h1, if_neg h2]
      have := ih (k1 - l) (k2 - l) (by omega)
      simp [buffers_adapter.cursorLe] at this ⊢
      omega

/-- Monotonicity of the walk's segment index alone. -/
theorem cursorOf_fst_mono (ls : List Nat) (k1 k2 : Nat) (h : k1 ≤ k2) :
    (cursorOf ls k1).1 ≤ (cursorOf ls k2).1 := by
  have := cursorOf_mono ls k1 k2 h
  simp only [buffers_adapter.cursorLe] at this
  omega

/-- An advancement of zero never moves the cursor from the origin. -/
theorem cursorOf_zero (ls : List Nat) : cursorOf ls 0 = (0, 0) := by
  cases ls with
  | nil => simp [cursorOf]
  | cons l ls => simp [cursorOf]

namespace buffers_adapter

/-- In a well-formed state the writable region starts exactly
`in_size_` bytes after the readable region starts. -/
theorem outStart_eq (s : buffers_adapter) (h : s.Invariant) :
    s.outStart = s.inStart + s.in_size_ := by
  unfold Invariant at h
  obtain ⟨h1, h2, h3, h4, h5⟩ := h
  have habs := abs_cursorOf s.lens (s.inStart + s.in_size_)
  rw [← h4] at habs
  simpa [outStart] using habs

/-- Well-formed states have their cursors in segment-sequence order. -/
theorem ordered_of_invariant (s : buffers_adapter) (h : s.Invariant) :
    s.Ordered := by
  unfold Invariant at h
  obtain ⟨h1, h2, h3, h4, h5⟩ := h
  unfold Ordered
  refine ⟨?_, ?_⟩
  · rw [h3, h4]
    exact cursorOf_mono _ _ _ (Nat.le_add_right _ _)
  · have ho := congrArg Prod.fst h4
    simp only at ho
    rw [ho, h5]
    exact cursorOf_fst_mono _ _ _ (Nat.le_add_right _ _)

/-- A freshly constructed adapter is well-formed. -/
theorem invariant_mk (bs : List (List Nat)) : (mk_ bs).Invariant := by
  unfold Invariant mk_
  simp [lens, inStart, lensOf, sumTo_zero, cursorOf_zero]

/-- `consume` preserves well-formedness. -/
theorem invariant_consume (s : buffers_adapter) (n : Nat) (h : s.Invariant) :
    (s.consume n).Invariant := by
  unfold Invariant at h
  obtain ⟨h1, h2, h3, h4, h5⟩ := h
  have habs := abs_cursorOf s.lens (s.inStart + min n s.in_size_)
  unfold Invariant consume
  simp only [lens, inStart, outStart] at *
  refine ⟨h1, by omega, ?_, ?_, ?_⟩
  · rw [habs]
  · rw [habs]
    have harith : s.inStart + min n s.in_size_ + (s.in_size_ - min n s.in_size_)
        = s.inStart + s.in_size_ := by
      unfold inStart; omega
    simp only [lens, inStart] at harith
    rw [harith]
    exact h4
  · rw [habs]
    have harith : s.inStart + min n s.in_size_ + (s.in_size_ - min n s.in_size_)
          + s.out_end_ = s.inStart + s.in_size_ + s.out_end_ := by
      unfold inStart; omega
    simp only [lens, inStart] at harith
    rw [harith]
    exact h5

/-- `commit` preserves well-formedness. -/
theorem invariant_commit (s : buffers_adapter) (n : Nat) (h : s.Invariant) :
    (s.commit n).Invariant := by
  have hout := outStart_eq s h
  unfold Invariant at h
  obtain ⟨h1, h2, h3, h4, h5⟩ := h
  unfold Invariant commit
  simp only [lens, inStart, outStart] at *
  refine ⟨h1, ?_, h3, ?_, ?_⟩
  · have : min n s.out_end_ ≤ s.out_end_ := Nat.min_le_right _ _
    omega
  · have harith : sumTo (lensOf s.bs_) s.begin_ + s.in_pos_
        + (s.in_size_ + min n s.out_end_)
        = sumTo (lensOf s.bs_) s.out_ + s.out_pos_ + min n s.out_end_ := by
      omega
    rw [harith]
  · have harith : sumTo (lensOf s.bs_) s.begin_ + s.in_pos_
        + (s.in_size_ + min n s.out_end_) + 0
        = sumTo (lensOf s.bs_) s.out_ + s.out_pos_ + min n s.out_end_ := by
      omega
    rw [harith]

/-- `prepare` preserves well-formedness on success. -/
theorem invariant_prepare (s : buffers_adapter) (n : Nat) (s2 : buffers_adapter)
    (h : s.Invariant) (hok : s.prepare n = Except.ok s2) : s2.Invariant := by
  have hout := outStart_eq s h
  unfold prepare at hok
  by_cases hg : s.max_size_ < s.in_size_ + n
  · rw [if_pos hg] at hok
    cases hok
  · rw [if_neg hg] at hok
    by_cases hle : n ≤ s.out_end_
    · rw [if_pos hle] at hok
      injection hok with hok
      rw [← hok]
      exact h
    · rw [if_neg hle] at hok
      injection hok with hok
      rw [← hok]
      unfold Invariant at h ⊢
      obtain ⟨h1, h2, h3, h4, h5⟩ := h
      simp only [lens, inStart, outStart] at *
      refine ⟨h1, by omega, h3, h4, ?_⟩
      have harith : sumTo (lensOf s.bs_) s.out_ + s.out_pos_ + n
          = sumTo (lensOf s.bs_) s.begin_ + s.in_pos_ + s.in_size_ + n := by
        omega
      rw [harith]

end buffers_adapter

/-! ### Writing through a prepared view -/

/-- Writing through a view never changes the segment lengths. -/
theorem lensOf_writeSegs (bs : List (List Nat)) (off : Nat) (bytes : List Nat) :
    lensOf (writeSegs bs off bytes) = lensOf bs := by
  induction bs generalizing off bytes with
  | nil => rfl
  | cons seg rest ih =>
    by_cases h : seg.length ≤ off
    · simp only [writeSegs, if_pos h, lensOf, List.map_cons]
      have := ih (off - seg.length) bytes
      simp only [lensOf] at this
      rw [this]
    · simp only [writeSegs, if_neg h, lensOf, List.map_cons]
      have := ih 0 (bytes.drop (min bytes.length (seg.length - off)))
      simp only [lensOf] at this
      rw [this]
      congr 1
      simp only [List.length_append, List.length_take, List.length_drop]
      omega

/-- Writing `bytes` at absolute offset `off` overwrites exactly the
byte range `[off, off + bytes.length)` of the flattened contents,
provided the range lies within the sequence. -/
theorem flatten_writeSegs (bs : List (List Nat)) (off : Nat) (bytes : List Nat)
    (h : off + bytes.length ≤ totalLen bs) :
    (writeSegs bs off bytes).flatten =
      bs.flatten.take off ++ bytes ++ bs.flatten.drop (off + bytes.length) := by
  induction bs generalizing off bytes with
  | nil =>
    simp only [totalLen, List.map_nil, List.sum_nil, Nat.le_zero] at h
    have hb : bytes = [] := List.eq_nil_of_length_eq_zero (by omega)
    have ho : off = 0 := by omega
    subst hb; subst ho
    simp [writeSegs]
  | cons seg rest ih =>
    have htot : totalLen (seg :: rest) = seg.length + totalLen rest := by
      simp [totalLen]
    by_cases hskip : seg.length ≤ off
    · simp only [writeSegs, if_pos hskip, List.flatten_cons]
      rw [ih (off - seg.length) bytes (by omega)]
      rw [List.take_append_eq_append_take, List.drop_append_eq_append_drop]
      rw [List.take_of_length_le (show seg.length ≤ off by omega),
        List.drop_eq_nil_of_le
          (show seg.length ≤ off + bytes.length by omega)]
      have e1 : off - seg.length + bytes.length
          = off + bytes.length - seg.length := by omega
      rw [e1]
      simp [List.append_assoc]
    · push_neg at hskip
      rcases Nat.le_total bytes.length (seg.length - off) with hc | hc
      · simp only [writeSegs, if_neg (by omega : ¬ seg.length ≤ off),
          List.flatten_cons, Nat.min_eq_left hc, List.take_length,
          List.drop_length]
        rw [ih 0 [] (by simp)]
        simp only [List.take_zero, List.drop_zero, List.length_nil,
          List.nil_append, List.append_nil, Nat.add_zero]
        rw [List.take_append_eq_append_take, List.drop_append_eq_append_drop]
        rw [show off - seg.length = 0 by omega,
          show off + bytes.length - seg.length = 0 by omega]
        simp [List.append_assoc]
      · simp only [writeSegs, if_neg (by omega : ¬ seg.length ≤ off),
          List.flatten_cons, Nat.min_eq_right hc]
        rw [ih 0 (bytes.drop (seg.length - off))
          (by simp only [List.length_drop]; omega)]
        simp only [List.take_zero, List.length_drop, List.nil_append,
          Nat.zero_add]
        rw [show off + (seg.length - off) = seg.length by omega,
          List.drop_length]
        rw [List.take_append_eq_append_take, List.drop_append_eq_append_drop]
        rw [show off - seg.length = 0 by omega, List.take_zero,
          List.drop_eq_nil_of_le
            (show seg.length ≤ off + bytes.length by omega),
          show off + bytes.length - seg.length
            = bytes.length - (seg.length - off) by omega]
        simp only [List.append_nil, List.nil_append, List.append_assoc]
        congr 1
        rw [← List.append_assoc, List.take_append_drop]

/-- The flattened contents have `totalLen` bytes. -/
theorem length_flatten_totalLen (bs : List (List Nat)) :
    bs.flatten.length = totalLen bs := by
  rw [List.length_flatten]
  rfl

/-- Splicing: reading `sz + n` bytes at offset `a` out of contents
whose range `[a + sz, a + sz + n)` was overwritten with `bytes` yields
the original `sz` bytes at `a` followed by `bytes`. -/
theorem take_middle (flat bytes : List Nat) (a sz n : Nat)
    (hlen : a + sz + n ≤ flat.length) (hb : bytes.length = n) :
    ((flat.take (a + sz) ++ bytes ++ flat.drop (a + sz + n)).drop a).take (sz + n)
      = (flat.drop a).take sz ++ bytes := by
  rw [List.append_assoc]
  rw [List.drop_append_eq_append_drop]
  rw [show a - (flat.take (a + sz)).length = 0 by
    simp only [List.length_take]; omega]
  simp only [List.drop_zero]
  rw [List.take_append_eq_append_take]
  rw [List.take_of_length_le
    (show ((flat.take (a + sz)).drop a).length ≤ sz + n by
      simp [List.length_take, List.length_drop]; omega)]
  rw [show sz + n - ((flat.take (a + sz)).drop a).length = n by
    simp [List.length_take, List.length_drop]; omega]
  rw [List.take_append_eq_append_take]
  rw [List.take_of_length_le (show bytes.length ≤ n by omega),
    show n - bytes.length = 0 by omega]
  simp only [List.take_zero, List.append_nil]
  congr 1
  rw [List.drop_take]
  congr 1
  omega

namespace buffers_adapter

/-- On success, `prepare` changes nothing but the reservation: the
sequence, the readable-region fields and `max_size_` are untouched, the
reservation now covers at least `n` bytes, and the capacity check
passed. -/
theorem prepare_ok_fields (s : buffers_adapter) (n : Nat)
    (s1 : buffers_adapter) (hok : s.prepare n = Except.ok s1) :
    s1.bs_ = s.bs_ ∧ s1.begin_ = s.begin_ ∧ s1.in_pos_ = s.in_pos_ ∧
    s1.in_size_ = s.in_size_ ∧ s1.out_ = s.out_ ∧ s1.out_pos_ = s.out_pos_ ∧
    s1.max_size_ = s.max_size_ ∧ n ≤ s1.out_end_ ∧
    s.in_size_ + n ≤ s.max_size_ := by
  unfold prepare at hok
  by_cases hg : s.max_size_ < s.in_size_ + n
  · rw [if_pos hg] at hok
    cases hok
  · rw [if_neg hg] at hok
    by_cases hle : n ≤ s.out_end_
    · rw [if_pos hle] at hok
      injection hok with hok
      rw [← hok]
      exact ⟨rfl, rfl, rfl, rfl, rfl, rfl, rfl, hle, by omega⟩
    · rw [if_neg hle] at hok
      injection hok with hok
      rw [← hok]
      exact ⟨rfl, rfl, rfl, rfl, rfl, rfl, rfl, Nat.le_refl n, by omega⟩

/-- `commit n` appends the first `min n out_end_` writable bytes to the
readable bytes, in order. -/
theorem data_commit (s : buffers_adapter) (n : Nat) (h : s.Invariant) :
    (s.commit n).data
      = s.data ++ (s.bs_.flatten.drop s.outStart).take (min n s.out_end_) := by
  have hout := outStart_eq s h
  unfold data commit inStart outStart lens at *
  simp only
  rw [List.take_add]
  congr 1
  rw [List.drop_drop]
  congr 2
  omega

/-- Round trip: after a successful `prepare n`, writing `n` bytes
through the returned view and committing them reproduces exactly the
old readable bytes followed by the written bytes. -/
theorem data_roundtrip (s : buffers_adapter) (n : Nat) (bytes : List Nat)
    (s1 : buffers_adapter) (h : s.Invariant) (hb : bytes.length = n)
    (hroom : s.outStart + n ≤ totalLen s.bs_)
    (hok : s.prepare n = Except.ok s1) :
    ((s1.writeThrough bytes).commit n).data = s.data ++ bytes := by
  obtain ⟨hbs, hbeg, hinp, hins, hout1, houtp, hmax, hoe, hcap⟩ :=
    prepare_ok_fields s n s1 hok
  have hout := outStart_eq s h
  unfold data commit writeThrough inStart outStart lens at *
  simp only [lensOf_writeSegs]
  simp only [hbs, hbeg, hinp, hins, hout1, houtp]
  rw [Nat.min_eq_left hoe]
  rw [flatten_writeSegs s.bs_ _ bytes (by rw [hb]; omega)]
  rw [hb, hout]
  rw [take_middle s.bs_.flatten bytes _ s.in_size_ n
    (by rw [length_flatten_totalLen]; omega) hb]

/-- The invariants named by the specification, spelled out: the size
bounds and the cursor ordering. -/
theorem claimed_invariants (s : buffers_adapter) (h : s.Invariant) :
    s.in_size_ ≤ s.max_size_ ∧ s.in_size_ + s.out_end_ ≤ s.max_size_
      ∧ s.Ordered := by
  have ho := ordered_of_invariant s h
  unfold Invariant at h
  obtain ⟨h1, h2, h3, h4, h5⟩ := h
  exact ⟨by omega, h2, ho⟩

end buffers_adapter

/-- A view of zero bytes has no spans. -/
theorem spansAux_zero (ls : List Nat) (i a : Nat) : spansAux ls i a 0 = [] := by
  cases ls with
  | nil => rfl
  | cons l ls => simp [spansAux]

namespace buffers_adapter

/-- Whenever the capacity check passes, `prepare n` succeeds and an
immediate `commit n` grows the readable size by exactly `n`, leaving
`max_size_` unchanged. -/
theorem prepare_commit_adds (s : buffers_adapter) (n : Nat)
    (h : s.in_size_ + n ≤ s.max_size_) :
    ∃ s1, s.prepare n = Except.ok s1 ∧
      (s1.commit n).in_size_ = s.in_size_ + n ∧
      (s1.commit n).max_size_ = s.max_size_ := by
  unfold prepare
  rw [if_neg (by omega)]
  by_cases hle : n ≤ s.out_end_
  · rw [if_pos hle]
    refine ⟨s, rfl, ?_, rfl⟩
    unfold commit
    simp only
    omega
  · rw [if_neg hle]
    refine ⟨_, rfl, ?_, rfl⟩
    unfold commit
    simp only
    omega

/-! ### The claims -/

/-- C1: `prepare n` fails with the capacity-exceeded error
(`std::length_error`) if and only if `size() + n > max_size()`; the
model is a pure function, so a failing `prepare` returns only the
error and the caller's state is untouched (strong guarantee); and in
every well-formed state `prepare (max_size() - size())` succeeds while
`prepare (max_size() - size() + 1)` fails. -/
theorem claim_C1 (s : buffers_adapter) (n : Nat) (h : s.Invariant) :
    ((∃ e, s.prepare n = Except.error e) ↔ s.max_size < s.size + n) ∧
    (∃ s1, s.prepare (s.max_size - s.size) = Except.ok s1) ∧
    s.prepare (s.max_size - s.size + 1) = Except.error "length_error" := by
  have hsz : s.in_size_ ≤ s.max_size_ := by
    unfold Invariant at h
    obtain ⟨-, h2, -⟩ := h
    omega
  unfold size max_size
  refine ⟨⟨?_, ?_⟩, ?_, ?_⟩
  · rintro ⟨e, he⟩
    unfold prepare at he
    by_cases hg : s.max_size_ < s.in_size_ + n
    · exact hg
    · rw [if_neg hg] at he
      by_cases hle : n ≤ s.out_end_
      · rw [if_pos hle] at he
        cases he
      · rw [if_neg hle] at he
        cases he
  · intro hg
    refine ⟨"length_error", ?_⟩
    unfold prepare
    rw [if_pos hg]
  · unfold prepare
    rw [if_neg
      (show ¬ s.max_size_ < s.in_size_ + (s.max_size_ - s.in_size_) by omega)]
    by_cases hle : s.max_size_ - s.in_size_ ≤ s.out_end_
    · rw [if_pos hle]
      exact ⟨s, rfl⟩
    · rw [if_neg hle]
      exact ⟨_, rfl⟩
  · unfold prepare
    rw [if_pos (by omega)]

/-- Witness for C1 at a concrete well-formed state. -/
theorem claim_C1_witness :
    ((∃ e, (mk_ [[1, 2], [3]]).prepare 4 = Except.error e) ↔
      (mk_ [[1, 2], [3]]).max_size < (mk_ [[1, 2], [3]]).size + 4) ∧
    (∃ s1, (mk_ [[1, 2], [3]]).prepare
        ((mk_ [[1, 2], [3]]).max_size - (mk_ [[1, 2], [3]]).size)
      = Except.ok s1) ∧
    (mk_ [[1, 2], [3]]).prepare
        ((mk_ [[1, 2], [3]]).max_size - (mk_ [[1, 2], [3]]).size + 1)
      = Except.error "length_error" :=
  claim_C1 (mk_ [[1, 2], [3]]) 4 (by decide)

/-- C2: `consume`, `commit`, and (on success) `prepare` each preserve
the state invariants: the result is again well-formed, its counters
satisfy `in_size_ ≤ max_size_` and `in_size_ + out_end_ ≤ max_size_`
(the model's `prepare` is atomic, so no transient intermediate state
is observable), and its cursors are ordered `begin_ ≤ out_ ≤ end_` in
segment-sequence order. -/
theorem claim_C2 (s : buffers_adapter) (n : Nat) (h : s.Invariant) :
    ((s.consume n).Invariant ∧
      (s.consume n).in_size_ ≤ (s.consume n).max_size_ ∧
      (s.consume n).in_size_ + (s.consume n).out_end_
        ≤ (s.consume n).max_size_ ∧
      (s.consume n).Ordered) ∧
    ((s.commit n).Invariant ∧
      (s.commit n).in_size_ ≤ (s.commit n).max_size_ ∧
      (s.commit n).in_size_ + (s.commit n).out_end_
        ≤ (s.commit n).max_size_ ∧
      (s.commit n).Ordered) ∧
    (∀ s1, s.prepare n = Except.ok s1 → s1.Invariant ∧
      s1.in_size_ ≤ s1.max_size_ ∧
      s1.in_size_ + s1.out_end_ ≤ s1.max_size_ ∧ s1.Ordered) := by
  refine ⟨?_, ?_, ?_⟩
  · have hi := invariant_consume s n h
    obtain ⟨a, b, c⟩ := claimed_invariants _ hi
    exact ⟨hi, a, b, c⟩
  · have hi := invariant_commit s n h
    obtain ⟨a, b, c⟩ := claimed_invariants _ hi
    exact ⟨hi, a, b, c⟩
  · intro s1 hok
    have hi := invariant_prepare s n s1 h hok
    obtain ⟨a, b, c⟩ := claimed_invariants _ hi
    exact ⟨hi, a, b, c⟩

/-- Witness for C2 at a concrete partially-used state. -/
theorem claim_C2_witness :
    ((sampleUsed.consume 2).Invariant ∧
      (sampleUsed.consume 2).in_size_ ≤ (sampleUsed.consume 2).max_size_ ∧
      (sampleUsed.consume 2).in_size_ + (sampleUsed.consume 2).out_end_
        ≤ (sampleUsed.consume 2).max_size_ ∧
      (sampleUsed.consume 2).Ordered) ∧
    ((sampleUsed.commit 2).Invariant ∧ (sampleUsed.commit 2).Ordered) ∧
    (buffers_adapter.Invariant ⟨[[1, 2], [3, 4]], 0, 1, 2, 4, 1, 2, 1, 2⟩ ∧
      buffers_adapter.Ordered ⟨[[1, 2], [3, 4]], 0, 1, 2, 4, 1, 2, 1, 2⟩) := by
  have h := claim_C2 sampleUsed 2 (by decide)
  have hp := h.2.2 ⟨[[1, 2], [3, 4]], 0, 1, 2, 4, 1, 2, 1, 2⟩ rfl
  exact ⟨h.1, ⟨h.2.1.1, h.2.1.2.2.2⟩, hp.1, hp.2.2.2⟩

/-- C3: whenever `size() + n ≤ max_size()`, `prepare n` succeeds and
an immediate `commit n` increases `size()` by exactly `n` and leaves
`max_size()` unchanged; consequently, from a freshly constructed
adapter, `prepare n1; commit n1; prepare n2; commit n2` with
`n1 + n2 ≤ max_size()` yields `size() = n1 + n2`. -/
theorem claim_C3 (s : buffers_adapter) (n : Nat) (bs : List (List Nat))
    (n1 n2 : Nat) (h : s.size + n ≤ s.max_size)
    (h12 : n1 + n2 ≤ (mk_ bs).max_size) :
    (∃ s1, s.prepare n = Except.ok s1 ∧
      (s1.commit n).size = s.size + n ∧
      (s1.commit n).max_size = s.max_size) ∧
    (∃ t1 t2, (mk_ bs).prepare n1 = Except.ok t1 ∧
      (t1.commit n1).prepare n2 = Except.ok t2 ∧
      (t2.commit n2).size = n1 + n2) := by
  unfold size max_size at *
  constructor
  · exact prepare_commit_adds s n h
  · have hmx : (mk_ bs).max_size_ = totalLen bs := rfl
    have hin : (mk_ bs).in_size_ = 0 := rfl
    obtain ⟨t1, hok1, hsz1, hmx1⟩ :=
      prepare_commit_adds (mk_ bs) n1 (by omega)
    obtain ⟨t2, hok2, hsz2, hmx2⟩ :=
      prepare_commit_adds (t1.commit n1) n2 (by omega)
    refine ⟨t1, t2, hok1, hok2, ?_⟩
    omega

/-- Witness for C3: two bytes then one byte into a 3-byte adapter. -/
theorem claim_C3_witness :
    (∃ s1, sampleUsed.prepare 2 = Except.ok s1 ∧
      (s1.commit 2).size = sampleUsed.size + 2 ∧
      (s1.commit 2).max_size = sampleUsed.max_size) ∧
    (∃ t1 t2, (mk_ [[1, 2], [3]]).prepare 2 = Except.ok t1 ∧
      (t1.commit 2).prepare 1 = Except.ok t2 ∧
      (t2.commit 1).size = 2 + 1) :=
  claim_C3 sampleUsed 2 [[1, 2], [3]] 2 1 (by decide) (by decide)

/-- C4: round trip across segment boundaries: bytes written through
the view of a successful `prepare n` and then committed are reproduced
exactly, in write order, by `data()`, however the underlying segments
split them; concretely, over two 4-byte spans, `prepare 6` covers the
full first span plus two bytes of the second, writing "ABCDEF" and
`commit 6` makes `data()` spell "ABCDEF", and `consume 3` then leaves
"DEF" with `size() = 3`. -/
theorem claim_C4 (s : buffers_adapter) (n : Nat) (bytes : List Nat)
    (s1 : buffers_adapter) (h : s.Invariant) (hb : bytes.length = n)
    (hroom : s.outStart + n ≤ totalLen s.bs_)
    (hok : s.prepare n = Except.ok s1) :
    ((s1.writeThrough bytes).commit n).data = s.data ++ bytes ∧
    ((mk_ abSeq).prepare 6 = Except.ok abPrepared ∧
      abPrepared.outSpans = [(0, 0, 4), (1, 0, 2)] ∧
      ((abPrepared.writeThrough abBytes).commit 6).data = abBytes ∧
      ((abPrepared.writeThrough abBytes).commit 6).size = 6 ∧
      (((abPrepared.writeThrough abBytes).commit 6).consume 3).data
        = [68, 69, 70] ∧
      (((abPrepared.writeThrough abBytes).commit 6).consume 3).size = 3) := by
  refine ⟨data_roundtrip s n bytes s1 h hb hroom hok, rfl, ?_, ?_, ?_, ?_, ?_⟩
    <;> decide

/-- Witness for C4: the general round-trip part instantiated at the
concrete "ABCDEF" scenario itself. -/
theorem claim_C4_witness :
    ((abPrepared.writeThrough abBytes).commit 6).data
        = (mk_ abSeq).data ++ abBytes ∧
    (mk_ abSeq).prepare 6 = Except.ok abPrepared :=
  ⟨(claim_C4 (mk_ abSeq) 6 abBytes abPrepared (by decide) (by decide)
      (by decide) rfl).1,
    rfl⟩

/-- C5: `consume n` never fails and clamps: the new `size()` is
`size() - min n size()`, and whenever `n ≥ size()` the result is
`size() = 0`, however large `n` is. -/
theorem claim_C5 (s : buffers_adapter) (n : Nat) :
    (s.consume n).size = s.size - min n s.size ∧
    (s.size ≤ n → (s.consume n).size = 0) := by
  unfold consume size
  simp
  omega

/-- Witness for C5: an oversized `consume` on the sample state. -/
theorem claim_C5_witness :
    (sampleUsed.consume 10000000).size
        = sampleUsed.size - min 10000000 sampleUsed.size ∧
    (sampleUsed.consume 10000000).size = 0 :=
  ⟨(claim_C5 sampleUsed 10000000).1,
    (claim_C5 sampleUsed 10000000).2 (by decide)⟩

/-- C6: `commit n` never fails and clamps: it moves exactly
`min n out_end_` bytes from the front of the writable region to the
end of the readable region — the readable bytes gain exactly those
bytes, in order — and when `n` exceeds the outstanding prepared count
only the outstanding amount is committed. -/
theorem claim_C6 (s : buffers_adapter) (n : Nat) (h : s.Invariant) :
    (s.commit n).size = s.size + min n s.out_end_ ∧
    (s.commit n).data
      = s.data ++ (s.bs_.flatten.drop s.outStart).take (min n s.out_end_) ∧
    (s.out_end_ ≤ n → (s.commit n).size = s.size + s.out_end_) := by
  refine ⟨rfl, data_commit s n h, ?_⟩
  intro hle
  unfold commit size
  simp only
  omega

/-- Witness for C6: an oversized `commit` on the sample state. -/
theorem claim_C6_witness :
    (sampleUsed.commit 5).size = sampleUsed.size + min 5 sampleUsed.out_end_ ∧
    (sampleUsed.commit 5).data
      = sampleUsed.data
        ++ (sampleUsed.bs_.flatten.drop sampleUsed.outStart).take
            (min 5 sampleUsed.out_end_) ∧
    (sampleUsed.commit 5).size = sampleUsed.size + sampleUsed.out_end_ := by
  have h := claim_C6 sampleUsed 5 (by decide)
  exact ⟨h.1, h.2.1, h.2.2 (by decide)⟩

/-- C7: `prepare` only ever extends the reserved writable region,
never shrinks it; and reserving `n` at or below the already reserved
byte count is a no-op on the state, the returned fresh view (a
function of the state) covering the same region. -/
theorem claim_C7 (s : buffers_adapter) (n : Nat) (h : s.Invariant) :
    (∀ s1, s.prepare n = Except.ok s1 → s.out_end_ ≤ s1.out_end_) ∧
    (n ≤ s.out_end_ → s.prepare n = Except.ok s ∧
      (∀ s1, s.prepare n = Except.ok s1 → s1.outSpans = s.outSpans)) := by
  have hcap : s.in_size_ + s.out_end_ ≤ s.max_size_ := by
    unfold Invariant at h
    obtain ⟨-, h2, -⟩ := h
    exact h2
  constructor
  · intro s1 hok
    unfold prepare at hok
    by_cases hg : s.max_size_ < s.in_size_ + n
    · rw [if_pos hg] at hok
      cases hok
    · rw [if_neg hg] at hok
      by_cases hle : n ≤ s.out_end_
      · rw [if_pos hle] at hok
        injection hok with hok
        rw [← hok]
      · rw [if_neg hle] at hok
        injection hok with hok
        rw [← hok]
        simp only
        omega
  · intro hle
    have hok : s.prepare n = Except.ok s := by
      unfold prepare
      rw [if_neg (by omega), if_pos hle]
    refine ⟨hok, ?_⟩
    intro s1 hok1
    rw [hok] at hok1
    injection hok1 with hok1
    rw [← hok1]

/-- Witness for C7: re-reserving the single already reserved byte of
the sample state. -/
theorem claim_C7_witness :
    sampleUsed.out_end_ ≤ sampleUsed.out_end_ ∧
    sampleUsed.prepare 1 = Except.ok sampleUsed ∧
    sampleUsed.outSpans = sampleUsed.outSpans := by
  have h := claim_C7 sampleUsed 1 (by decide)
  have hp := h.2 (by decide)
  exact ⟨h.1 sampleUsed hp.1, hp.1, hp.2 sampleUsed hp.1⟩

/-- C8: after `commit n` the writable (prepared) region is empty —
any prepared-but-uncommitted bytes beyond the committed prefix are
discarded — so a further `commit m` without an intervening `prepare`
appends nothing to the readable region. -/
theorem claim_C8 (s : buffers_adapter) (n m : Nat) :
    (s.commit n).out_end_ = 0 ∧ (s.commit n).outSpans = [] ∧
    ((s.commit n).commit m).size = (s.commit n).size := by
  refine ⟨rfl, ?_, ?_⟩
  · unfold outSpans spansBetween
    exact spansAux_zero _ _ _
  · unfold commit size
    simp

/-- C9: copy and move construction/assignment preserve the logical
buffer state: the copy stores an equal segment-sequence descriptor and
reports the same `size()`, `max_size()` and `data()` contents, with
the iterators rebased at the same segment indices and in-segment
offsets and every scalar counter copied unchanged (header delegating
constructor, lines 57-71). -/
theorem claim_C9 (s : buffers_adapter) :
    (copyFrom s).size = s.size ∧ (copyFrom s).max_size = s.max_size ∧
    (copyFrom s).capacity = s.capacity ∧
    (copyFrom s).data = s.data ∧ (copyFrom s).dataSpans = s.dataSpans ∧
    (copyFrom s).bs_ = s.bs_ ∧
    (copyFrom s).begin_ = s.begin_ ∧ (copyFrom s).in_pos_ = s.in_pos_ ∧
    (copyFrom s).out_ = s.out_ ∧ (copyFrom s).out_pos_ = s.out_pos_ ∧
    (copyFrom s).end_ = s.end_ ∧
    (copyFrom s).in_size_ = s.in_size_ ∧
    (copyFrom s).out_end_ = s.out_end_ :=
  ⟨rfl, rfl, rfl, rfl, rfl, rfl, rfl, rfl, rfl, rfl, rfl, rfl, rfl⟩

/-- C10: a freshly constructed adapter has all cursors and counters
zeroed — `size() = 0` with empty readable and writable regions — and
`max_size()` equal to the total byte length of the wrapped sequence;
`capacity()` always coincides with `max_size()`, and no operation ever
changes `max_size()`. -/
theorem claim_C10 (bs : List (List Nat)) (s : buffers_adapter) (n : Nat)
    (s1 : buffers_adapter) (hok : s.prepare n = Except.ok s1) :
    (mk_ bs).size = 0 ∧ (mk_ bs).data = [] ∧ (mk_ bs).dataSpans = [] ∧
    (mk_ bs).outSpans = [] ∧
    (mk_ bs).begin_ = 0 ∧ (mk_ bs).out_ = 0 ∧ (mk_ bs).end_ = 0 ∧
    (mk_ bs).in_pos_ = 0 ∧ (mk_ bs).in_size_ = 0 ∧
    (mk_ bs).out_pos_ = 0 ∧ (mk_ bs).out_end_ = 0 ∧
    (mk_ bs).max_size = totalLen bs ∧
    s.capacity = s.max_size ∧
    (s.consume n).max_size = s.max_size ∧
    (s.commit n).max_size = s.max_size ∧
    s1.max_size = s.max_size := by
  refine ⟨rfl, ?_, ?_, ?_, rfl, rfl, rfl, rfl, rfl, rfl, rfl, rfl,
    rfl, rfl, rfl, ?_⟩
  · unfold data
    simp [mk_]
  · unfold dataSpans spansBetween
    exact spansAux_zero _ _ _
  · unfold outSpans spansBetween
    exact spansAux_zero _ _ _
  · obtain ⟨-, -, -, -, -, -, hmx, -⟩ := prepare_ok_fields s n s1 hok
    unfold max_size
    rw [hmx]

/-- Witness for C10 at concrete inputs. -/
theorem claim_C10_witness :
    (mk_ [[1, 2], [3]]).size = 0 ∧ (mk_ [[1, 2], [3]]).data = [] ∧
    (mk_ [[1, 2], [3]]).dataSpans = [] ∧
    (mk_ [[1, 2], [3]]).outSpans = [] ∧
    (mk_ [[1, 2], [3]]).begin_ = 0 ∧ (mk_ [[1, 2], [3]]).out_ = 0 ∧
    (mk_ [[1, 2], [3]]).end_ = 0 ∧
    (mk_ [[1, 2], [3]]).in_pos_ = 0 ∧ (mk_ [[1, 2], [3]]).in_size_ = 0 ∧
    (mk_ [[1, 2], [3]]).out_pos_ = 0 ∧ (mk_ [[1, 2], [3]]).out_end_ = 0 ∧
    (mk_ [[1, 2], [3]]).max_size = totalLen [[1, 2], [3]] ∧
    sampleUsed.capacity = sampleUsed.max_size ∧
    (sampleUsed.consume 2).max_size = sampleUsed.max_size ∧
    (sampleUsed.commit 2).max_size = sampleUsed.max_size ∧
    buffers_adapter.max_size ⟨[[1, 2], [3, 4]], 0, 1, 2, 4, 1, 2, 1, 2⟩
      = sampleUsed.max_size :=
  claim_C10 [[1, 2], [3]] sampleUsed 2
    ⟨[[1, 2], [3, 4]], 0, 1, 2, 4, 1, 2, 1, 2⟩ rfl

end buffers_adapter

end BuffersAdapter
